import Mathlib

/-!
Verification of the PCA engine specification against the notebook
`pca.ipynb`.  The notebook's algorithmic core (standardize, covariance,
eigendecomposition, projection) delegates the numerics to `np.cov`,
`np.linalg.eig` and scikit-learn's `StandardScaler`/`PCA`; the pieces that
live in the notebook itself (the test matrix `[[5,3],[3,5]]`, the
`pcabh` component selection, the `clean`/`to_float` helpers, the
projection products) are embedded here directly, and the library-backed
operations are modelled from the specification's contracts.
-/

open Matrix

namespace PCA

/-- Column mean of a dataset: `mean_j = (Σ_r X[r][j]) / n`.  This is what
`np.cov` recomputes internally for each column (spec section 4.2). -/
def colMean {n d : ℕ} {α : Type} [Field α] (X : Matrix (Fin n) (Fin d) α) (j : Fin d) : α :=
  (∑ r, X r j) / (n : α)

/-- Dataset with every column centered by its own mean. -/
def centered {n d : ℕ} {α : Type} [Field α] (X : Matrix (Fin n) (Fin d) α) :
    Matrix (Fin n) (Fin d) α :=
  Matrix.of fun r j => X r j - colMean X j

/-- Modelled from the spec: the Covariance Estimator (the notebook calls
`np.cov(X_tr_sc, rowvar=False)`, whose implementation is not part of the
repository).  Sample covariance with the `n - 1` divisor, computed as
`(1/(n-1)) · Xcᵀ · Xc` over the internally centered data `Xc`. -/
def covMat {n d : ℕ} {α : Type} [Field α] (X : Matrix (Fin n) (Fin d) α) :
    Matrix (Fin d) (Fin d) α :=
  (1 / ((n : α) - 1)) • ((centered X)ᵀ * centered X)

/-- Modelled from the spec: `explained_variance` is the selected
eigenvalues clamped to be nonnegative (spec section 4.4). -/
def explainedVariance (ev : List ℚ) (k : ℕ) : List ℚ :=
  (ev.take k).map (fun l => max l 0)

/-- Modelled from the spec: `explained_variance_ratio` divides each selected
eigenvalue by the sum of all `d` eigenvalues, not just the selected `k`
(spec section 4.4). -/
def explainedVarianceRatio (ev : List ℚ) (k : ℕ) : List ℚ :=
  (ev.take k).map (fun l => l / ev.sum)

/-- Helper: summing a list after dividing each element by a constant is the
same as dividing the sum. -/
theorem list_sum_map_div (l : List ℚ) (c : ℚ) :
    (l.map (fun x => x / c)).sum = l.sum / c := by
  induction l with
  | nil => simp
  | cons a t ih => simp [ih, add_div]

/-- Claim C5: for an `n×d` dataset with `n ≥ 2` the covariance estimator
returns the `d×d` matrix with entries
`C[i][j] = (1/(n-1)) · Σ_r (X[r][i] - mean_i) · (X[r][j] - mean_j)`
(sample covariance, `n-1` divisor, internally recomputed column means),
and the result is symmetric. -/
theorem covMat_spec {n d : ℕ} (X : Matrix (Fin n) (Fin d) ℚ) (hn : 2 ≤ n) :
    (∀ i j, covMat X i j =
      (1 / ((n : ℚ) - 1)) * ∑ r, (X r i - colMean X i) * (X r j - colMean X j)) ∧
    (covMat X).IsSymm := by
  constructor
  · intro i j
    simp [covMat, centered, Matrix.smul_apply, Matrix.mul_apply, Finset.mul_sum]
  · unfold Matrix.IsSymm covMat
    rw [Matrix.transpose_smul, Matrix.transpose_mul, Matrix.transpose_transpose]

/-- Witness for C5 at the concrete dataset `[[1,2],[3,4]]` (2 rows, 2
columns). -/
theorem covMat_spec_witness :
    2 ≤ 2 ∧
    ((∀ i j, covMat (Matrix.of ![![(1 : ℚ), 2], ![3, 4]]) i j =
      (1 / ((2 : ℚ) - 1)) * ∑ r, (Matrix.of ![![(1 : ℚ), 2], ![3, 4]] r i -
          colMean (Matrix.of ![![(1 : ℚ), 2], ![3, 4]]) i) *
        (Matrix.of ![![(1 : ℚ), 2], ![3, 4]] r j -
          colMean (Matrix.of ![![(1 : ℚ), 2], ![3, 4]]) j)) ∧
    (covMat (Matrix.of ![![(1 : ℚ), 2], ![3, 4]])).IsSymm) :=
  ⟨by decide, covMat_spec (Matrix.of ![![(1 : ℚ), 2], ![3, 4]]) (by decide)⟩

/-- Claim C6: each `explained_variance_ratio` value is the corresponding
eigenvalue divided by the sum of all `d` eigenvalues; when the eigenvalues
are nonnegative with positive total, every ratio lies in `[0,1]`; and when
`k = d` the ratios sum to exactly `1`. -/
theorem explainedVarianceRatio_spec (ev : List ℚ) (k : ℕ)
    (hpos : ∀ x ∈ ev, 0 ≤ x) (hsum : 0 < ev.sum) :
    (∀ i, (h : i < (explainedVarianceRatio ev k).length) →
      (explainedVarianceRatio ev k).get ⟨i, h⟩ =
        (ev.take k).get ⟨i, by simpa [explainedVarianceRatio] using h⟩ / ev.sum) ∧
    (∀ r ∈ explainedVarianceRatio ev k, 0 ≤ r ∧ r ≤ 1) ∧
    (k = ev.length → (explainedVarianceRatio ev k).sum = 1) := by
  refine ⟨?_, ?_, ?_⟩
  · intro i h
    simp [explainedVarianceRatio]
  · intro r hr
    simp only [explainedVarianceRatio, List.mem_map] at hr
    obtain ⟨x, hx, rfl⟩ := hr
    have hxev : x ∈ ev := List.mem_of_mem_take hx
    have hx0 : 0 ≤ x := hpos x hxev
    constructor
    · positivity
    · rw [div_le_one hsum]
      exact List.single_le_sum hpos x hxev
  · intro hk
    subst hk
    rw [explainedVarianceRatio, List.take_length, list_sum_map_div,
      div_self (ne_of_gt hsum)]

/-- Witness for C6 at the eigenvalue list `[8, 2]` with `k = 2`. -/
theorem explainedVarianceRatio_spec_witness :
    (∀ x ∈ [(8 : ℚ), 2], 0 ≤ x) ∧ 0 < [(8 : ℚ), 2].sum ∧
    ((∀ i, (h : i < (explainedVarianceRatio [(8 : ℚ), 2] 2).length) →
      (explainedVarianceRatio [(8 : ℚ), 2] 2).get ⟨i, h⟩ =
        ([(8 : ℚ), 2].take 2).get ⟨i, by simpa [explainedVarianceRatio] using h⟩ /
          [(8 : ℚ), 2].sum) ∧
    (∀ r ∈ explainedVarianceRatio [(8 : ℚ), 2] 2, 0 ≤ r ∧ r ≤ 1) ∧
    (2 = [(8 : ℚ), 2].length → (explainedVarianceRatio [(8 : ℚ), 2] 2).sum = 1)) :=
  ⟨by decide, by norm_num [List.sum_cons, List.sum_nil],
    explainedVarianceRatio_spec [(8 : ℚ), 2] 2 (by decide)
      (by norm_num [List.sum_cons, List.sum_nil])⟩

/-- The test matrix `A = np.array([[5, 3], [3, 5]])` from the notebook. -/
noncomputable def A53 : Matrix (Fin 2) (Fin 2) ℝ :=
  Matrix.of ![![5, 3], ![3, 5]]

/-- Unit eigenvector `(√2/2, √2/2)` for eigenvalue 8, as derived in the
notebook and returned (as a column of `q`) by `np.linalg.eig(A)`. -/
noncomputable def vec8 : Fin 2 → ℝ := ![Real.sqrt 2 / 2, Real.sqrt 2 / 2]

/-- Unit eigenvector `(-√2/2, √2/2)` for eigenvalue 2, as derived in the
notebook. -/
noncomputable def vec2 : Fin 2 → ℝ := ![-(Real.sqrt 2 / 2), Real.sqrt 2 / 2]

/-- Claim C2: the eigendecomposition of `[[5,3],[3,5]]` yields exactly the
eigenvalues 2 and 8 (the roots of `det (A - l·I) = 0`), with unit
eigenvectors `(-√2/2, √2/2)` for 2 and `(√2/2, √2/2)` for 8. -/
theorem eig_A53_spec :
    (∀ l : ℝ, (A53 - l • (1 : Matrix (Fin 2) (Fin 2) ℝ)).det = 0 ↔ l = 2 ∨ l = 8) ∧
    A53 *ᵥ vec2 = (2 : ℝ) • vec2 ∧
    A53 *ᵥ vec8 = (8 : ℝ) • vec8 ∧
    Real.sqrt (vec2 0 ^ 2 + vec2 1 ^ 2) = 1 ∧
    Real.sqrt (vec8 0 ^ 2 + vec8 1 ^ 2) = 1 := by
  have hsq : Real.sqrt 2 ^ 2 = 2 := Real.sq_sqrt (by norm_num)
  refine ⟨?_, ?_, ?_, ?_, ?_⟩
  · intro l
    have hdet : (A53 - l • (1 : Matrix (Fin 2) (Fin 2) ℝ)).det = (l - 2) * (l - 8) := by
      rw [Matrix.det_fin_two]
      simp [A53, Matrix.sub_apply, Matrix.smul_apply, Matrix.one_apply]
      ring
    rw [hdet, mul_eq_zero, sub_eq_zero, sub_eq_zero]
  · funext i
    fin_cases i <;>
      simp [A53, vec2, Matrix.mulVec, Matrix.dotProduct, Fin.sum_univ_two] <;> ring
  · funext i
    fin_cases i <;>
      simp [A53, vec8, Matrix.mulVec, Matrix.dotProduct, Fin.sum_univ_two] <;> ring
  · have : vec2 0 ^ 2 + vec2 1 ^ 2 = 1 := by
      simp only [vec2, Matrix.cons_val_zero, Matrix.cons_val_one, Matrix.head_cons]
      rw [neg_pow, div_pow, hsq]
      norm_num
    rw [this, Real.sqrt_one]
  · have : vec8 0 ^ 2 + vec8 1 ^ 2 = 1 := by
      simp only [vec8, Matrix.cons_val_zero, Matrix.cons_val_one, Matrix.head_cons]
      rw [div_pow, hsq]
      norm_num
    rw [this, Real.sqrt_one]

/-- Modelled from the spec: the Eigen-Decomposer contract (spec section
4.3).  The notebook delegates this component to `np.linalg.eig`, whose
implementation is not part of the repository.  `ev` and `Q` form an
eigendecomposition of `A` when `A = Q·Λ·Qᵀ` with `Λ = diagonal ev`, the
columns of `Q` are orthonormal (`Qᵀ·Q = 1`), and the `j`-th column of `Q`
is an eigenvector of `A` for eigenvalue `ev j`. -/
def eigenDecomposition {d : ℕ} (A : Matrix (Fin d) (Fin d) ℝ)
    (ev : Fin d → ℝ) (Q : Matrix (Fin d) (Fin d) ℝ) : Prop :=
  A = Q * Matrix.diagonal ev * Qᵀ ∧ Qᵀ * Q = 1 ∧
    ∀ j, A *ᵥ (fun i => Q i j) = ev j • (fun i => Q i j)

/-- Claim C1: every real symmetric `d×d` matrix has an eigendecomposition
into exactly `d` eigenvalue/eigenvector pairs with `A = Q·Λ·Qᵀ`, the
columns of `Q` forming an orthonormal set of eigenvectors. -/
theorem eigenDecomposition_exists {d : ℕ} (A : Matrix (Fin d) (Fin d) ℝ)
    (hA : A.IsSymm) : ∃ ev Q, eigenDecomposition A ev Q := by
  have hH : A.IsHermitian := by
    show Aᴴ = A
    rw [Matrix.conjTranspose_eq_transpose_of_trivial]
    exact hA
  refine ⟨hH.eigenvalues, (hH.eigenvectorUnitary : Matrix (Fin d) (Fin d) ℝ), ?_, ?_, ?_⟩
  · have h := hH.spectral_theorem
    have hid : RCLike.ofReal ∘ hH.eigenvalues = hH.eigenvalues := by
      rw [RCLike.ofReal_real_eq_id]
      rfl
    rw [hid] at h
    have hstar : star (hH.eigenvectorUnitary : Matrix (Fin d) (Fin d) ℝ) =
        (hH.eigenvectorUnitary : Matrix (Fin d) (Fin d) ℝ)ᵀ := by
      rw [Matrix.star_eq_conjTranspose, Matrix.conjTranspose_eq_transpose_of_trivial]
    rwa [hstar] at h
  · have h := Matrix.mem_unitaryGroup_iff'.mp hH.eigenvectorUnitary.2
    rwa [Matrix.star_eq_conjTranspose, Matrix.conjTranspose_eq_transpose_of_trivial] at h
  · intro j
    have hcol : (fun i => (hH.eigenvectorUnitary : Matrix (Fin d) (Fin d) ℝ) i j) =
        ⇑(hH.eigenvectorBasis j) := by
      funext i
      exact hH.eigenvectorUnitary_apply i j
    rw [hcol]
    exact hH.mulVec_eigenvectorBasis j

/-- Witness for C1 at the notebook's symmetric test matrix `[[5,3],[3,5]]`. -/
theorem eigenDecomposition_exists_witness :
    A53.IsSymm ∧ ∃ ev Q, eigenDecomposition A53 ev Q := by
  have h : A53.IsSymm := by
    show A53ᵀ = A53
    funext i j
    fin_cases i <;> fin_cases j <;> simp [A53, Matrix.transpose_apply]
  exact ⟨h, eigenDecomposition_exists A53 h⟩

/-- Modelled from the spec: a fitted `PCAModel` (spec section 3) holds the
fitted mean vector and the selected eigenvectors stacked as a `k×d`
loading matrix (one component per row, matching `pca.components_`). -/
structure PCAModelR (d k : ℕ) where
  mean : Fin d → ℝ
  components : Matrix (Fin k) (Fin d) ℝ

/-- Modelled from the spec: a model is fitted from a dataset `X` when its
component rows are `k` distinct columns of the orthonormal eigenvector
matrix produced by the Eigen-Decomposer on the covariance matrix of `X`,
and its mean is the column mean of `X` (spec sections 4.3-4.5). -/
def IsFitted {n d k : ℕ} (X : Matrix (Fin n) (Fin d) ℝ) (M : PCAModelR d k) : Prop :=
  ∃ ev Q, eigenDecomposition (covMat X) ev Q ∧
    ∃ sel : Fin k → Fin d, Function.Injective sel ∧
      M.mean = colMean X ∧
      M.components = Matrix.of fun i j => Q j (sel i)

/-- Claim C3: for every fitted PCA model, every component row has Euclidean
norm exactly 1, and when `k ≥ 2` every pair of distinct component rows has
dot product exactly 0 (hence within the 1e-9 tolerance). -/
theorem components_orthonormal {n d k : ℕ} (X : Matrix (Fin n) (Fin d) ℝ)
    (M : PCAModelR d k) (h : IsFitted X M) :
    (∀ i, Real.sqrt (∑ j, M.components i j ^ 2) = 1) ∧
    (2 ≤ k → ∀ i i2 : Fin k, i ≠ i2 → ∑ j, M.components i j * M.components i2 j = 0) := by
  obtain ⟨ev, Q, ⟨-, hQ, -⟩, sel, hsel, -, hM⟩ := h
  have key : ∀ a b : Fin d, (∑ m, Q m a * Q m b) = if a = b then 1 else 0 := by
    intro a b
    have h1 := congrFun (congrFun hQ a) b
    simpa [Matrix.mul_apply, Matrix.transpose_apply, Matrix.one_apply] using h1
  constructor
  · intro i
    have : (∑ j, M.components i j ^ 2) = 1 := by
      rw [hM]
      simp only [Matrix.of_apply, pow_two]
      rw [key (sel i) (sel i)]
      simp
    rw [this, Real.sqrt_one]
  · intro _ i i2 hne
    rw [hM]
    simp only [Matrix.of_apply]
    rw [key (sel i) (sel i2), if_neg (fun hc => hne (hsel hc))]

/-- Concrete 2-row, 2-column dataset `[[1,0],[-1,0]]` used to exhibit a
fitted model. -/
noncomputable def Xfit : Matrix (Fin 2) (Fin 2) ℝ :=
  Matrix.of ![![1, 0], ![-1, 0]]

/-- Concrete fitted model on `Xfit`: the covariance matrix is
`[[2,0],[0,0]]`, decomposed with `Q = 1` and eigenvalues `(2, 0)`. -/
noncomputable def Mfit : PCAModelR 2 2 :=
  ⟨colMean Xfit, Matrix.of fun i j => (1 : Matrix (Fin 2) (Fin 2) ℝ) j i⟩

/-- Witness for C3: `Mfit` is a fitted model on `Xfit`, and its components
are orthonormal. -/
theorem components_orthonormal_witness :
    IsFitted Xfit Mfit ∧
    ((∀ i, Real.sqrt (∑ j, Mfit.components i j ^ 2) = 1) ∧
    (2 ≤ 2 → ∀ i i2 : Fin 2, i ≠ i2 →
      ∑ j, Mfit.components i j * Mfit.components i2 j = 0)) := by
  have hcov : covMat Xfit = Matrix.of ![![2, 0], ![0, 0]] := by
    funext i j
    fin_cases i <;> fin_cases j <;>
      simp [covMat, centered, colMean, Xfit, Matrix.mul_apply, Fin.sum_univ_two] <;>
      norm_num
  have hfit : IsFitted Xfit Mfit := by
    refine ⟨![2, 0], 1, ⟨?_, ?_, ?_⟩, id, Function.injective_id, rfl, ?_⟩
    · rw [hcov]
      rw [Matrix.transpose_one, Matrix.one_mul, Matrix.mul_one]
      funext i j
      fin_cases i <;> fin_cases j <;> simp [Matrix.diagonal]
    · rw [Matrix.transpose_one, Matrix.one_mul]
    · intro j
      rw [hcov]
      funext i
      fin_cases i <;> fin_cases j <;>
        simp [Matrix.mulVec, Matrix.dotProduct, Fin.sum_univ_two, Matrix.one_apply]
    · rfl
  exact ⟨hfit, components_orthonormal Xfit Mfit hfit⟩

/-- Eigenpair: an eigenvalue paired with its eigenvector (spec section 3).
The Eigen-Decomposer hands the selector the eigenpairs as an ordered list
(`np.linalg.eig` returns `eigvals` and the matching columns of `eigvecs`
in an implementation-defined order). -/
abbrev Eigenpair : Type := ℚ × List ℚ

/-- The notebook's component selection
`pcabh = np.vstack([row[:3].reshape(1, 3) for row in eigvecs])`: taking
`row[:k]` of every row of `eigvecs` keeps exactly the first `k` columns,
i.e. the first `k` eigenpairs in the order the eigensolver returned them,
with no re-sorting. -/
def codeSelect (pairs : List Eigenpair) (k : ℕ) : List Eigenpair :=
  pairs.take k

/-- Insert an eigenpair into a descending-sorted list, before the first
entry whose eigenvalue is not larger (so earlier-returned pairs stay ahead
of later ties: a stable, original-index tie-break). -/
def insertDesc (p : Eigenpair) : List Eigenpair → List Eigenpair
  | [] => [p]
  | q :: t => if q.1 ≤ p.1 then p :: q :: t else q :: insertDesc p t

/-- Stable insertion sort by eigenvalue, descending. -/
def sortDesc : List Eigenpair → List Eigenpair
  | [] => []
  | p :: t => insertDesc p (sortDesc t)

/-- Modelled from the spec: the Component Selector of spec section 4.4
sorts the eigenpairs by eigenvalue descending with a stable tie-break and
takes the first `k`. -/
def specSelect (pairs : List Eigenpair) (k : ℕ) : List Eigenpair :=
  (sortDesc pairs).take k

/-- Counterexample to claim C4: on eigenpairs returned in ascending
eigenvalue order (eigenvalues 1 then 2, with standard-basis eigenvectors),
the notebook's selection of the first component is not the eigenpair of
largest eigenvalue: the code does not sort. -/
theorem codeSelect_ne_specSelect :
    codeSelect [((1 : ℚ), [1, 0]), (2, [0, 1])] 1 ≠
      specSelect [((1 : ℚ), [1, 0]), (2, [0, 1])] 1 := by
  decide

/-- Helper: inserting an eigenpair whose eigenvalue is at least every key
of the list puts it in front. -/
theorem insertDesc_of_ge (p : Eigenpair) (t : List Eigenpair)
    (h : ∀ q ∈ t, q.1 ≤ p.1) : insertDesc p t = p :: t := by
  cases t with
  | nil => rfl
  | cons q t2 => simp [insertDesc, h q (List.mem_cons_self q t2)]

/-- Helper: the stable descending sort leaves a list that is already
sorted by eigenvalue descending unchanged. -/
theorem sortDesc_of_sorted (pairs : List Eigenpair)
    (h : List.Sorted (fun p q : Eigenpair => q.1 ≤ p.1) pairs) :
    sortDesc pairs = pairs := by
  induction pairs with
  | nil => rfl
  | cons p t ih =>
    rw [List.sorted_cons] at h
    rw [sortDesc, ih h.2, insertDesc_of_ge p t h.1]

/-- Claim C4 (amended): the notebook's selector keeps the first `k`
eigenpairs in the order the eigensolver returned them, with no
re-sorting; this agrees with the descending-sorted top-`k` selection
exactly when the returned eigenvalues are already in descending order,
and the selection is a pure function of its input, hence reproducible. -/
theorem codeSelect_spec (pairs : List Eigenpair) (k : ℕ)
    (h : List.Sorted (fun p q : Eigenpair => q.1 ≤ p.1) pairs) :
    codeSelect pairs k = specSelect pairs k := by
  rw [codeSelect, specSelect, sortDesc_of_sorted pairs h]

/-- Witness for the amended C4 at eigenpairs already sorted descending
(eigenvalues 8 then 2). -/
theorem codeSelect_spec_witness :
    List.Sorted (fun p q : Eigenpair => q.1 ≤ p.1) [((8 : ℚ), [1, 1]), (2, [-1, 1])] ∧
    codeSelect [((8 : ℚ), [1, 1]), (2, [-1, 1])] 1 =
      specSelect [((8 : ℚ), [1, 1]), (2, [-1, 1])] 1 := by
  have h : List.Sorted (fun p q : Eigenpair => q.1 ≤ p.1)
      [((8 : ℚ), [1, 1]), (2, [-1, 1])] := by
    decide
  exact ⟨h, codeSelect_spec [((8 : ℚ), [1, 1]), (2, [-1, 1])] 1 h⟩

/-- Modelled from the spec: `fit(dataset, k)` stores the training column
means together with the selected component loading matrix `W` (the `k×d`
stack of selected eigenvectors produced by the Selector) in the model
(spec section 4.5). -/
noncomputable def fitPCA {n d k : ℕ} (X : Matrix (Fin n) (Fin d) ℝ)
    (W : Matrix (Fin k) (Fin d) ℝ) : PCAModelR d k :=
  ⟨colMean X, W⟩

/-- Modelled from the spec: `transform(dataset)` centers the input with the
model's stored mean and right-multiplies the `n×d` centered data by the
`d×k` loading matrix (the transpose of the `k×d` component stack), as
`pca.transform(test_scaled)` does in the notebook (spec section 4.5). -/
noncomputable def transformPCA {m d k : ℕ} (M : PCAModelR d k)
    (Y : Matrix (Fin m) (Fin d) ℝ) : Matrix (Fin m) (Fin k) ℝ :=
  (Matrix.of fun r j => Y r j - M.mean j) * M.componentsᵀ

/-- Claim C7: transforming any dataset `Y` with a model fitted on `X`
subtracts the column means of the training data `X` (the stored fit-time
mean, not a mean recomputed from `Y`) and right-multiplies by the loading
matrix, producing the `m×k` matrix with entries
`Σ_j (Y[r][j] - mean(X)_j) · W[c][j]`; the stored mean is exactly the
training mean. -/
theorem transformPCA_spec {n m d k : ℕ} (X : Matrix (Fin n) (Fin d) ℝ)
    (W : Matrix (Fin k) (Fin d) ℝ) (Y : Matrix (Fin m) (Fin d) ℝ) :
    (∀ r c, transformPCA (fitPCA X W) Y r c =
      ∑ j, (Y r j - colMean X j) * W c j) ∧
    (fitPCA X W).mean = colMean X := by
  constructor
  · intro r c
    simp [transformPCA, fitPCA, Matrix.mul_apply, Matrix.transpose_apply]
  · rfl

/-- Modelled from the spec: `fit_transform(dataset, k)` computed in a
single pass, centering the dataset by its own column means and projecting
it (spec section 4.5). -/
noncomputable def fitTransformPCA {n d k : ℕ} (X : Matrix (Fin n) (Fin d) ℝ)
    (W : Matrix (Fin k) (Fin d) ℝ) : Matrix (Fin n) (Fin k) ℝ :=
  (Matrix.of fun r j => X r j - colMean X j) * Wᵀ

/-- Scaler error taxonomy relevant here (spec section 7). -/
inductive ScalerError
  | degenerateColumn
  | notFitted
  | dimensionMismatch
deriving DecidableEq

/-- Fitted Scaler state: per-column mean and standard deviation learned
from the reference dataset (spec section 3). -/
structure ScalerState (d : ℕ) where
  mean : Fin d → ℝ
  std : Fin d → ℝ

/-- Sample variance of a column, with the `n-1` divisor fixed by spec
section 9. -/
noncomputable def colVar {n d : ℕ} (X : Matrix (Fin n) (Fin d) ℝ) (j : Fin d) : ℝ :=
  (∑ r, (X r j - colMean X j) ^ 2) / ((n : ℝ) - 1)

open Classical in
/-- Modelled from the spec: the Scaler's `fit` (the notebook uses
scikit-learn's `StandardScaler`, whose implementation is not part of the
repository): it learns per-column mean and standard deviation and fails
with `DegenerateColumnError` when some column's standard deviation is 0
(spec section 4.1). -/
noncomputable def scalerFit {n d : ℕ} (X : Matrix (Fin n) (Fin d) ℝ) :
    Except ScalerError (ScalerState d) :=
  if ∃ j, Real.sqrt (colVar X j) = 0 then Except.error ScalerError.degenerateColumn
  else Except.ok ⟨colMean X, fun j => Real.sqrt (colVar X j)⟩

/-- Modelled from the spec: the Scaler's `transform` replaces each value by
`(value - column mean) / column standard deviation` using the fitted
state (spec section 4.1). -/
noncomputable def scalerTransform {m d : ℕ} (st : ScalerState d)
    (Y : Matrix (Fin m) (Fin d) ℝ) : Matrix (Fin m) (Fin d) ℝ :=
  Matrix.of fun r j => (Y r j - st.mean j) / st.std j

open Classical in
/-- Modelled from the spec: the Scaler's `fit_transform` computed in a
single pass over the dataset, as `ss.fit_transform(...)` in the notebook. -/
noncomputable def scalerFitTransform {n d : ℕ} (X : Matrix (Fin n) (Fin d) ℝ) :
    Except ScalerError (Matrix (Fin n) (Fin d) ℝ) :=
  if ∃ j, Real.sqrt (colVar X j) = 0 then Except.error ScalerError.degenerateColumn
  else Except.ok
    (Matrix.of fun r j => (X r j - colMean X j) / Real.sqrt (colVar X j))

/-- Claim C8: `fit_transform` is numerically equivalent to `fit` followed
by `transform` on the same data, both for the PCA engine and for the
Scaler. -/
theorem fitTransform_eq_fit_then_transform {n d k : ℕ}
    (X : Matrix (Fin n) (Fin d) ℝ) (W : Matrix (Fin k) (Fin d) ℝ) :
    fitTransformPCA X W = transformPCA (fitPCA X W) X ∧
    scalerFitTransform X = (scalerFit X).map (fun st => scalerTransform st X) := by
  constructor
  · rfl
  · by_cases h : ∃ j, Real.sqrt (colVar X j) = 0
    · simp [scalerFit, scalerFitTransform, h, Except.map]
    · simp [scalerFit, scalerFitTransform, h, Except.map, scalerTransform]

/-- Claim C9: the Scaler's `fit` fails with `DegenerateColumnError` on any
dataset (with at least one row) containing a constant column; no
standardized output is produced for such input. -/
theorem scalerFit_degenerate {n d : ℕ} (X : Matrix (Fin n) (Fin d) ℝ)
    (hn : 1 ≤ n) (h : ∃ j c, ∀ r, X r j = c) :
    scalerFit X = Except.error ScalerError.degenerateColumn := by
  obtain ⟨j, c, hc⟩ := h
  have hn0 : (n : ℝ) ≠ 0 := by
    have : 0 < n := hn
    positivity
  have hmean : colMean X j = c := by
    rw [colMean]
    rw [Finset.sum_congr rfl (fun r _ => hc r)]
    rw [Finset.sum_const, Finset.card_univ, Fintype.card_fin, nsmul_eq_mul]
    field_simp
  have hvar : colVar X j = 0 := by
    rw [colVar]
    rw [Finset.sum_congr rfl (fun r _ => by rw [hc r, hmean, sub_self])]
    simp
  rw [scalerFit, if_pos ⟨j, by rw [hvar, Real.sqrt_zero]⟩]

/-- Witness for C9 at the dataset `[[1,5],[2,5]]`, whose second column is
constant. -/
theorem scalerFit_degenerate_witness :
    (1 ≤ 2 ∧ ∃ j c, ∀ r, (Matrix.of ![![(1 : ℝ), 5], ![2, 5]]) r j = c) ∧
    scalerFit (Matrix.of ![![(1 : ℝ), 5], ![2, 5]]) =
      Except.error ScalerError.degenerateColumn := by
  have h : ∃ j c, ∀ r, (Matrix.of ![![(1 : ℝ), 5], ![2, 5]]) r j = c := by
    refine ⟨1, 5, fun r => ?_⟩
    fin_cases r <;> simp
  exact ⟨⟨by decide, h⟩,
    scalerFit_degenerate (Matrix.of ![![(1 : ℝ), 5], ![2, 5]]) (by decide) h⟩

/-- Cell values of the cars dataframe: the blank string placeholder, a
missing value (`np.nan`), or a numeric value. -/
inductive Val
  | blank
  | nan
  | num (q : ℚ)
deriving DecidableEq

/-- Dataframe: named columns of values. -/
abbrev Frame : Type := List (String × List Val)

/-- Python object heap for dataframes: frames indexed by their address, so
that in-place column assignment and `df.copy()` are observable. -/
abbrev Heap : Type := List Frame

/-- Read a column of a frame by name. -/
def getCol (f : Frame) (c : String) : List Val :=
  match f.find? (fun p => p.1 == c) with
  | some p => p.2
  | none => []

/-- Replace a column of a frame by name. -/
def setCol (f : Frame) (c : String) (v : List Val) : Frame :=
  f.map (fun p => if p.1 == c then (p.1, v) else p)

/-- The statement `obj[c] = t(obj[c])` on the frame at address `a`:
mutates only that frame. -/
def updCol (h : Heap) (a : ℕ) (c : String) (t : List Val → List Val) : Heap :=
  h.set a (setCol (h.getD a []) c (t (getCol (h.getD a []) c)))

/-- Mean of the numeric entries of a column, mirroring `Series.mean()`
(parsing of numeric strings is abstracted into `Val.num`). -/
def colMeanVal (col : List Val) : Val :=
  let nums := col.filterMap (fun v => match v with | Val.num q => some q | _ => none)
  if nums.length = 0 then Val.nan else Val.num (nums.sum / (nums.length : ℚ))

/-- The column transform of `clean`:
`new[col].replace(' ', np.nan).map(float).replace(np.nan, new[col].mean())`.
Blanks become missing, `map(float)` is the identity on already-numeric and
missing entries, and the mean that refills missing entries is evaluated on
the pre-assignment column. -/
def cleanCol (col : List Val) : List Val :=
  let c1 := col.map (fun v => if v = Val.blank then Val.nan else v)
  let m := colMeanVal col
  c1.map (fun v => if v = Val.nan then m else v)

/-- `map(float)` on an already-numeric column: identity on numbers,
missing values stay missing. -/
def toFloatVal : Val → Val
  | Val.num q => Val.num q
  | v => v

/-- The notebook's `clean(df)`: `new = df.copy()`, then reassign the
`' cubicinches'` and `' weightlbs'` columns of `new`, then return `new`.
Heap-explicit: `copy` allocates a fresh frame at a fresh address and both
column assignments target only that address. -/
def clean (h : Heap) (df : ℕ) : Heap × ℕ :=
  let a := h.length
  let h1 := h ++ [h.getD df []]
  let h2 := updCol h1 a " cubicinches" cleanCol
  let h3 := updCol h2 a " weightlbs" cleanCol
  (h3, a)

/-- The notebook's `to_float(df)`: `new = df.copy()`, then map the four
numeric-as-object columns through `float`, then return `new`. -/
def to_float (h : Heap) (df : ℕ) : Heap × ℕ :=
  let a := h.length
  let h1 := h ++ [h.getD df []]
  let h2 := updCol h1 a " cylinders" (List.map toFloatVal)
  let h3 := updCol h2 a " hp" (List.map toFloatVal)
  let h4 := updCol h3 a " time-to-60" (List.map toFloatVal)
  let h5 := updCol h4 a " year" (List.map toFloatVal)
  (h5, a)

/-- Helper: reading any address other than the written one is unchanged by
`List.set`. -/
theorem getD_set_ne (l : Heap) (a b : ℕ) (f : Frame) (hne : b ≠ a) :
    (l.set a f).getD b [] = l.getD b [] := by
  rw [List.getD_eq_getD_get?, List.getD_eq_getD_get?, List.get?_eq_getElem?,
    List.get?_eq_getElem?, List.getElem?_set_ne (fun hc => hne hc.symm)]

/-- Helper: a column assignment on address `a` leaves every other address
unchanged. -/
theorem updCol_getD_ne (h : Heap) (a : ℕ) (c : String) (t : List Val → List Val)
    (b : ℕ) (hne : b ≠ a) : (updCol h a c t).getD b [] = h.getD b [] :=
  getD_set_ne h a b _ hne

/-- Claim C10: `clean` and `to_float` do not mutate their argument: the
frame at the argument's address is unchanged after either call, and the
returned frame is a fresh object at a different address. -/
theorem clean_to_float_no_mutation (h : Heap) (df : ℕ) (hdf : df < h.length) :
    ((clean h df).1.getD df [] = h.getD df [] ∧ (clean h df).2 ≠ df) ∧
    ((to_float h df).1.getD df [] = h.getD df [] ∧ (to_float h df).2 ≠ df) := by
  have hne : df ≠ h.length := Nat.ne_of_lt hdf
  have happ : (h ++ [h.getD df []]).getD df [] = h.getD df [] :=
    List.getD_append h [h.getD df []] [] df hdf
  constructor
  · constructor
    · show (updCol (updCol (h ++ [h.getD df []]) h.length _ _) h.length _ _).getD df [] =
        h.getD df []
      rw [updCol_getD_ne _ _ _ _ _ hne, updCol_getD_ne _ _ _ _ _ hne, happ]
    · exact fun hc => hne hc.symm
  · constructor
    · show (updCol (updCol (updCol (updCol (h ++ [h.getD df []])
        h.length _ _) h.length _ _) h.length _ _) h.length _ _).getD df [] = h.getD df []
      rw [updCol_getD_ne _ _ _ _ _ hne, updCol_getD_ne _ _ _ _ _ hne,
        updCol_getD_ne _ _ _ _ _ hne, updCol_getD_ne _ _ _ _ _ hne, happ]
    · exact fun hc => hne hc.symm

/-- Witness for C10 at a one-frame heap holding a small cars-like frame
with a blank `' cubicinches'` entry. -/
theorem clean_to_float_no_mutation_witness :
    0 < [[(" cubicinches", [Val.blank, Val.num 2]),
      (" cylinders", [Val.num 4, Val.num 6])]].length ∧
    (((clean [[(" cubicinches", [Val.blank, Val.num 2]),
      (" cylinders", [Val.num 4, Val.num 6])]] 0).1.getD 0 [] =
        [[(" cubicinches", [Val.blank, Val.num 2]),
      (" cylinders", [Val.num 4, Val.num 6])]].getD 0 [] ∧
      (clean [[(" cubicinches", [Val.blank, Val.num 2]),
      (" cylinders", [Val.num 4, Val.num 6])]] 0).2 ≠ 0) ∧
    ((to_float [[(" cubicinches", [Val.blank, Val.num 2]),
      (" cylinders", [Val.num 4, Val.num 6])]] 0).1.getD 0 [] =
        [[(" cubicinches", [Val.blank, Val.num 2]),
      (" cylinders", [Val.num 4, Val.num 6])]].getD 0 [] ∧
      (to_float [[(" cubicinches", [Val.blank, Val.num 2]),
      (" cylinders", [Val.num 4, Val.num 6])]] 0).2 ≠ 0)) :=
  ⟨by decide, clean_to_float_no_mutation _ 0 (by decide)⟩

end PCA
